import Mathlib

/-
  Verification development for the lock-stack / object-monitor-cache core
  (src/src/hotspot/share/runtime/lockStack.hpp).

  The header under src/ declares the operations (and gives inline bodies for
  the wait_was_inflated flag accessors and the OMCache constructor); the
  bodies of the remaining inline operations live in a companion file that is
  not part of src/, so those operations are modelled from the specification,
  faithful to its words (sections 3, 4.1 and 4.2 of the spec).

  Object references (oops) are modelled as natural numbers, with 0 standing
  for the null / bad-oop sentinel; a valid heap reference is nonzero.
-/

/-- An object reference (oop); 0 stands for the null / sentinel reference. -/
abbrev Oop := Nat

/-- Modelled from the spec: an inflated object monitor, reduced to the two
features the cache needs: its pointer identity `id` (0 standing for a null /
invalid monitor pointer) and the oop `obj` of the object it belongs to. -/
structure ObjectMonitor where
  id : Nat
  obj : Oop
  deriving DecidableEq

/-- Modelled from the spec: the logical state of a LockStack — the ordered
sequence of occupied entries (`base`, oldest at the head, most-recent at the
end; the spec's `top` is its length) together with the `_wait_was_inflated`
flag, whose accessors are given in the header. -/
structure LockStack where
  base : List Oop
  waitWasInflated : Bool
  deriving DecidableEq

/-- `LockStack::CAPACITY = 8`, from the header. -/
def LockStack.CAPACITY : Nat := 8

/-- The number of occupied entries: the spec's `top` count (the header stores
it as a byte offset; `to_index` of that offset is this count). -/
def LockStack.topCount (s : LockStack) : Nat := s.base.length

/-- Modelled from the spec: `canPush(n)` is true iff `top + n <= capacity`. -/
def LockStack.can_push (s : LockStack) (n : Nat) : Bool :=
  decide (s.topCount + n ≤ LockStack.CAPACITY)

/-- Modelled from the spec: `push(o)` appends `o` as the new most-recent
entry; precondition `canPush(1)` is caller-checked. -/
def LockStack.push (o : Oop) (s : LockStack) : LockStack :=
  { s with base := s.base ++ [o] }

/-- Modelled from the spec: `isFull()` is `top == capacity`. -/
def LockStack.is_full (s : LockStack) : Bool :=
  decide (s.topCount = LockStack.CAPACITY)

/-- Modelled from the spec: `isEmpty()` is `top == 0`. -/
def LockStack.is_empty (s : LockStack) : Bool := s.base.isEmpty

/-- Modelled from the spec: `bottom()` returns the oldest entry (index 0);
precondition non-empty. -/
def LockStack.bottom (s : LockStack) : Oop := s.base.headD 0

/-- Modelled from the spec: `top()` returns the most-recently pushed entry
(the spec directs implementing it as most-recent and treating the header's
"oldest" doc comment as stale); precondition non-empty. -/
def LockStack.top (s : LockStack) : Oop := s.base.getLastD 0

/-- Modelled from the spec: `isRecursive(o)` is true iff the most-recent
entry equals `o`; precondition: the stack contains `o`. -/
def LockStack.is_recursive (o : Oop) (s : LockStack) : Bool :=
  s.base.getLastD 0 == o

/-- Modelled from the spec: `tryRecursiveEnter(o)`: if the most-recent entry
equals `o` and there is room, push a duplicate of `o` and return true;
otherwise return false without mutation. -/
def LockStack.try_recursive_enter (o : Oop) (s : LockStack) : Bool × LockStack :=
  if 1 ≤ s.topCount ∧ s.base.getLastD 0 = o ∧ s.topCount + 1 ≤ LockStack.CAPACITY
  then (true, LockStack.push o s)
  else (false, s)

/-- Modelled from the spec: `tryRecursiveExit(o)`: if the most-recent entry
equals `o` and the entry immediately below it is also `o`, pop the top entry
and return true; otherwise return false without mutation. Precondition: the
stack contains `o`. -/
def LockStack.try_recursive_exit (o : Oop) (s : LockStack) : Bool × LockStack :=
  if 2 ≤ s.topCount ∧ s.base.getD (s.topCount - 1) 0 = o
       ∧ s.base.getD (s.topCount - 2) 0 = o
  then (true, { s with base := s.base.dropLast })
  else (false, s)

/-- Modelled from the spec: the scan of `remove(o)` over the occupied range,
front to back: matching entries are skipped (counted), the others are
compacted in order. Returns the number removed and the compacted sequence. -/
def removeScan (o : Oop) : List Oop → Nat × List Oop
  | [] => (0, [])
  | x :: xs =>
    let r := removeScan o xs
    if x == o then (r.1 + 1, r.2) else (r.1, x :: r.2)

/-- Modelled from the spec: `remove(o)` removes every occurrence of `o`,
compacting the remaining entries, and returns the number removed.
Precondition: the stack contains `o`. -/
def LockStack.remove (o : Oop) (s : LockStack) : Nat × LockStack :=
  let r := removeScan o s.base
  (r.1, { s with base := r.2 })

/-- Modelled from the spec: `contains(o)` is a linear scan over the occupied
entries. -/
def LockStack.contains (o : Oop) (s : LockStack) : Bool := s.base.contains o

/-- From the header: `wait_was_inflated()` returns the flag. -/
def LockStack.wait_was_inflated (s : LockStack) : Bool := s.waitWasInflated

/-- From the header: `set_wait_was_inflated()` sets the flag to true. -/
def LockStack.set_wait_was_inflated (s : LockStack) : LockStack :=
  { s with waitWasInflated := true }

/-- From the header: `clear_wait_was_inflated()` sets the flag to false. -/
def LockStack.clear_wait_was_inflated (s : LockStack) : LockStack :=
  { s with waitWasInflated := false }

/-- The mutating LockStack operations, for reasoning about operation
sequences. A push is performed only when `canPush(1)` holds (the spec's
caller-checked precondition). -/
inductive LSOp
  | pushO (o : Oop)
  | enterO (o : Oop)
  | exitO (o : Oop)
  | removeO (o : Oop)
  | setWWI
  | clearWWI
  deriving DecidableEq

/-- One step of a LockStack operation. -/
def lsStep : LSOp → LockStack → LockStack
  | LSOp.pushO o, s => if LockStack.can_push s 1 then LockStack.push o s else s
  | LSOp.enterO o, s => (LockStack.try_recursive_enter o s).2
  | LSOp.exitO o, s => (LockStack.try_recursive_exit o s).2
  | LSOp.removeO o, s => (LockStack.remove o s).2
  | LSOp.setWWI, s => LockStack.set_wait_was_inflated s
  | LSOp.clearWWI, s => LockStack.clear_wait_was_inflated s

/-- Run a sequence of LockStack operations, oldest first. -/
def lsRun (ops : List LSOp) (s : LockStack) : LockStack :=
  ops.foldl (fun t op => lsStep op t) s

/-- Modelled from the spec: the monitor cache as the parallel `_oops` /
`_monitors` sequences of the header (oop 0 is the null sentinel slot value,
monitor 0 the invalid / unset monitor pointer). The constructor in the
header value-initializes both arrays, so the fresh cache has every slot in
the sentinel state. -/
structure OMCache where
  oops : List Oop
  monitors : List Nat
  deriving DecidableEq

/-- `OMCache::CAPACITY = 8`, from the header. -/
def OMCache.CAPACITY : Nat := 8

/-- The parallel arrays viewed as a sequence of (oop, monitor) slot pairs,
most-recently-used first. -/
def OMCache.entries (c : OMCache) : List (Oop × Nat) := c.oops.zip c.monitors

/-- Rebuild the parallel arrays from a sequence of slot pairs. -/
def OMCache.ofEntries (es : List (Oop × Nat)) : OMCache :=
  ⟨es.map Prod.fst, es.map Prod.snd⟩

/-- The freshly constructed cache: every slot in the sentinel state, as
established by the constructor in the header. -/
def OMCache.emptyCache : OMCache :=
  OMCache.ofEntries (List.replicate OMCache.CAPACITY (0, 0))

/-- Modelled from the spec: `clear()` resets every slot to the sentinel
state. -/
def OMCache.clear (c : OMCache) : OMCache := OMCache.emptyCache

/-- The probe loop of `getMonitor`: find the first slot satisfying the test
and detach it, keeping the remaining slots in order. -/
def extractFirst (p : Oop × Nat → Bool) :
    List (Oop × Nat) → Option ((Oop × Nat) × List (Oop × Nat))
  | [] => none
  | e :: es =>
    if p e then some (e, es)
    else
      match extractFirst p es with
      | none => none
      | some (x, rest) => some (x, e :: rest)

/-- Modelled from the spec: `getMonitor(o)` probes for a slot whose stored
reference equals `o`; on a hit it returns the associated monitor and promotes
the matching slot to the most-recently-used position; on a miss it returns
the explicit not-found result and leaves the cache unchanged. -/
def OMCache.get_monitor (o : Oop) (c : OMCache) : Option Nat × OMCache :=
  match extractFirst (fun e => e.1 == o) (OMCache.entries c) with
  | none => (none, c)
  | some (x, rest) => (some x.2, OMCache.ofEntries (x :: rest))

/-- Modelled from the spec: `setMonitor(monitor)` inserts the entry for
(monitor's owning object, monitor) at the most-recently-used position,
shifting the existing entries toward the least-recently-used end, dropping
any pre-existing entry for the same object (overwrite, not duplicate) and
evicting the least-recently-used entry if the cache is full; the unoccupied
tail stays in the sentinel state. -/
def OMCache.set_monitor (m : ObjectMonitor) (c : OMCache) : OMCache :=
  let kept :=
    ((OMCache.entries c).filter
      (fun e => !(e.1 == m.obj) && !(e.1 == 0))).take (OMCache.CAPACITY - 1)
  let es := (m.obj, m.id) :: kept
  OMCache.ofEntries (es ++ List.replicate (OMCache.CAPACITY - es.length) (0, 0))

/-- Does the cache hold an entry for `o`? -/
def OMCache.containsOop (o : Oop) (c : OMCache) : Bool :=
  (OMCache.entries c).any (fun e => e.1 == o)

/-- The OMCache operations, for reasoning about operation sequences. -/
inductive OMOp
  | getO (o : Oop)
  | setO (m : ObjectMonitor)
  | clearO
  deriving DecidableEq

/-- One step of an OMCache operation. -/
def omStep : OMOp → OMCache → OMCache
  | OMOp.getO o, c => (OMCache.get_monitor o c).2
  | OMOp.setO m, c => OMCache.set_monitor m c
  | OMOp.clearO, c => OMCache.clear c

/-- Run a sequence of OMCache operations, oldest first. -/
def omRun (ops : List OMOp) (c : OMCache) : OMCache :=
  ops.foldl (fun t op => omStep op t) c

/-- A well-formed operation: a `setMonitor` only ever receives a valid
monitor (nonzero pointer) owning a valid (nonzero) object. -/
def OMOp.good : OMOp → Bool
  | OMOp.setO m => (!(m.obj == 0)) && (!(m.id == 0))
  | _ => true

/-- Is the operation a `getMonitor` probe for a valid (nonzero) object? -/
def OMOp.isNzGet : OMOp → Bool
  | OMOp.getO o => !(o == 0)
  | _ => false

/-- Does the operation insert an entry for object `o`? -/
def OMOp.setsObj (o : Oop) : OMOp → Bool
  | OMOp.setO m => m.obj == o
  | _ => false

/-- The parallel-array invariant of the header: the slot lengths are the
capacity, and a slot's oop is the null sentinel iff its monitor is
invalid/unset. -/
def OMCache.Inv (c : OMCache) : Prop :=
  c.oops.length = OMCache.CAPACITY ∧ c.monitors.length = OMCache.CAPACITY ∧
    ∀ e ∈ OMCache.entries c, (e.1 = 0 ↔ e.2 = 0)

/- ### Helper lemmas -/

theorem getLastD_eq_getD (l : List Oop) (d : Oop) :
    l.getLastD d = l.getD (l.length - 1) d := by
  simp [List.getLastD_eq_getLast?, List.getLast?_eq_getElem?,
    List.getD_eq_getElem?_getD]

theorem contains_iff_mem (o : Oop) (s : LockStack) :
    LockStack.contains o s = true ↔ o ∈ s.base := by
  simp [LockStack.contains, List.contains]

theorem removeScan_spec (o : Oop) (l : List Oop) :
    removeScan o l = (l.count o, l.filter (fun x => !(x == o))) := by
  induction l with
  | nil => rfl
  | cons x xs ih =>
    simp only [removeScan, ih, List.filter_cons, List.count_cons]
    by_cases hx : x = o
    · subst hx; simp
    · simp [hx, Ne.symm hx]

/- ### Claim theorems: LockStack -/

/-- C1: for every non-empty LockStack, `top()` returns the most-recently
pushed entry — the entry at index `top - 1` — and the entry just pushed is
what `top()` then returns; its precondition is that the stack is non-empty. -/
theorem claim_C1_top_most_recent (s : LockStack) (h : LockStack.is_empty s = false) :
    LockStack.top s = s.base.getD (LockStack.topCount s - 1) 0
    ∧ ∀ o : Oop, LockStack.top (LockStack.push o s) = o := by
  constructor
  · exact getLastD_eq_getD s.base 0
  · intro o
    simp [LockStack.top, LockStack.push, List.getLastD_concat]

/-- Witness for C1 at the concrete stack [3, 4]. -/
theorem claim_C1_top_most_recent_w :
    LockStack.top ⟨[3, 4], false⟩ = 4 :=
  (claim_C1_top_most_recent ⟨[3, 4], false⟩ (by decide)).1

/-- C2: for every LockStack containing `o`, `remove(o)` returns the number
of occurrences of `o` before the call (at least one), deletes every
occurrence of `o` (the result is the order-preserving filter of the entries,
a sublist of the original), and `contains(o)` is false afterwards. -/
theorem claim_C2_remove_all (s : LockStack) (o : Oop)
    (hc : LockStack.contains o s = true) :
    (LockStack.remove o s).1 = s.base.count o
    ∧ 1 ≤ (LockStack.remove o s).1
    ∧ (LockStack.remove o s).2.base = s.base.filter (fun x => !(x == o))
    ∧ List.Sublist (LockStack.remove o s).2.base s.base
    ∧ LockStack.contains o (LockStack.remove o s).2 = false := by
  have hmem : o ∈ s.base := (contains_iff_mem o s).1 hc
  have h1 : (LockStack.remove o s).1 = s.base.count o := by
    simp [LockStack.remove, removeScan_spec]
  have h3 : (LockStack.remove o s).2.base = s.base.filter (fun x => !(x == o)) := by
    simp [LockStack.remove, removeScan_spec]
  refine ⟨h1, ?_, h3, ?_, ?_⟩
  · rw [h1]
    exact List.count_pos_iff.2 hmem
  · rw [h3]
    exact List.filter_sublist s.base
  · rw [Bool.eq_false_iff]
    intro hcon
    have := (contains_iff_mem o _).1 hcon
    rw [h3] at this
    simp [List.mem_filter] at this

/-- Witness for C2 at the concrete stack [5, 6, 5]. -/
theorem claim_C2_remove_all_w :
    LockStack.contains 5 (LockStack.remove 5 ⟨[5, 6, 5], false⟩).2 = false :=
  (claim_C2_remove_all ⟨[5, 6, 5], false⟩ 5 (by decide)).2.2.2.2

/-- C4: for every LockStack containing `o`, `tryRecursiveExit(o)` returns
true iff the most-recent entry (index top-1) equals `o` and the entry
immediately below it (index top-2) is also `o`; when true it pops the top
entry (the flag is untouched), and when false it leaves the stack
unchanged. -/
theorem claim_C4_recursive_exit_charact (s : LockStack) (o : Oop)
    (hc : LockStack.contains o s = true) :
    ((LockStack.try_recursive_exit o s).1 = true ↔
      (2 ≤ LockStack.topCount s ∧ s.base.getD (LockStack.topCount s - 1) 0 = o
        ∧ s.base.getD (LockStack.topCount s - 2) 0 = o))
    ∧ ((LockStack.try_recursive_exit o s).1 = true →
        (LockStack.try_recursive_exit o s).2.base = s.base.dropLast
        ∧ (LockStack.try_recursive_exit o s).2.waitWasInflated = s.waitWasInflated)
    ∧ ((LockStack.try_recursive_exit o s).1 = false →
        (LockStack.try_recursive_exit o s).2 = s) := by
  unfold LockStack.try_recursive_exit
  split
  case isTrue h =>
    exact ⟨iff_of_true rfl h, fun _ => ⟨rfl, rfl⟩, fun hf => nomatch hf⟩
  case isFalse h =>
    refine ⟨iff_of_false Bool.false_ne_true h, fun hf => ?_, fun _ => rfl⟩
    exact absurd hf Bool.false_ne_true

/-- Witness for C4 at the concrete stack [5, 5]: the exit pops the top. -/
theorem claim_C4_recursive_exit_charact_w :
    (LockStack.try_recursive_exit 5 ⟨[5, 5], false⟩).2.base = [5]
    ∧ (LockStack.try_recursive_exit 5 ⟨[5, 5], false⟩).2.waitWasInflated = false :=
  (claim_C4_recursive_exit_charact ⟨[5, 5], false⟩ 5 (by decide)).2.1 (by decide)

/-- C6: `canPush(n)` returns true iff `top + n <= 8` (the compile-time
capacity), hence is false whenever `top + n > capacity`. It is a pure query:
in this embedding it is a function producing only a Bool, so it cannot
change the stack. -/
theorem claim_C6_can_push_iff (s : LockStack) (n : Nat) :
    (LockStack.can_push s n = true ↔ LockStack.topCount s + n ≤ LockStack.CAPACITY)
    ∧ (LockStack.CAPACITY < LockStack.topCount s + n →
        LockStack.can_push s n = false) := by
  constructor
  · simp [LockStack.can_push]
  · intro h
    simp only [LockStack.can_push, decide_eq_false_iff_not]
    omega

/-- Witness for C6: a stack of five entries cannot take four more. -/
theorem claim_C6_can_push_iff_w :
    LockStack.can_push ⟨[1, 1, 1, 1, 1], false⟩ 4 = false :=
  (claim_C6_can_push_iff ⟨[1, 1, 1, 1, 1], false⟩ 4).2 (by decide)

/-- C10: `set_wait_was_inflated` makes `wait_was_inflated` return true,
`clear_wait_was_inflated` makes it return false, and neither changes the
top count nor any stack entry — the flag is the only state they touch
(the model state consists precisely of the entries and the flag). -/
theorem claim_C10_wait_flag_frame (s : LockStack) :
    LockStack.wait_was_inflated (LockStack.set_wait_was_inflated s) = true
    ∧ LockStack.wait_was_inflated (LockStack.clear_wait_was_inflated s) = false
    ∧ (LockStack.set_wait_was_inflated s).base = s.base
    ∧ (LockStack.clear_wait_was_inflated s).base = s.base
    ∧ LockStack.topCount (LockStack.set_wait_was_inflated s) = LockStack.topCount s
    ∧ LockStack.topCount (LockStack.clear_wait_was_inflated s) = LockStack.topCount s :=
  ⟨rfl, rfl, rfl, rfl, rfl, rfl⟩

theorem push_topCount (o : Oop) (s : LockStack) :
    LockStack.topCount (LockStack.push o s) = LockStack.topCount s + 1 := by
  simp [LockStack.topCount, LockStack.push]

theorem getD_concat_self (l : List Oop) (o : Oop) :
    (l ++ [o]).getD l.length 0 = o := by
  rw [List.getD_eq_getElem?_getD, List.getElem?_concat_length]
  rfl

theorem getD_concat_left (l : List Oop) (o : Oop) (i : Nat) (h : i < l.length) :
    (l ++ [o]).getD i 0 = l.getD i 0 := by
  rw [List.getD_eq_getElem?_getD, List.getElem?_append_left h,
    List.getD_eq_getElem?_getD]

/-- C3: when `o` is already held at least once and `tryRecursiveEnter(o)`
returns true, an immediately following `tryRecursiveExit(o)` returns true
and restores exactly the prior stack state (same occupancy, same
top-of-stack entry — in fact the same whole state). -/
theorem claim_C3_enter_exit_roundtrip (s : LockStack) (o : Oop)
    (hc : LockStack.contains o s = true)
    (he : (LockStack.try_recursive_enter o s).1 = true) :
    LockStack.try_recursive_exit o (LockStack.try_recursive_enter o s).2 = (true, s) := by
  have hcond : 1 ≤ s.topCount ∧ s.base.getLastD 0 = o
      ∧ s.topCount + 1 ≤ LockStack.CAPACITY := by
    by_contra hcon
    unfold LockStack.try_recursive_enter at he
    rw [if_neg hcon] at he
    exact Bool.false_ne_true he
  obtain ⟨h1, h2, h3⟩ := hcond
  have henter : (LockStack.try_recursive_enter o s).2 = LockStack.push o s := by
    unfold LockStack.try_recursive_enter
    rw [if_pos ⟨h1, h2, h3⟩]
  rw [henter]
  have hlen : LockStack.topCount (LockStack.push o s) = s.base.length + 1 :=
    push_topCount o s
  have g1 : (LockStack.push o s).base.getD
      (LockStack.topCount (LockStack.push o s) - 1) 0 = o := by
    rw [hlen]
    show (s.base ++ [o]).getD (s.base.length + 1 - 1) 0 = o
    simpa using getD_concat_self s.base o
  have g2 : (LockStack.push o s).base.getD
      (LockStack.topCount (LockStack.push o s) - 2) 0 = o := by
    rw [hlen]
    show (s.base ++ [o]).getD (s.base.length + 1 - 2) 0 = o
    have hlt : s.base.length + 1 - 2 < s.base.length := by
      simp [LockStack.topCount] at h1
      omega
    rw [getD_concat_left s.base o _ hlt]
    have : s.base.length + 1 - 2 = s.base.length - 1 := by omega
    rw [this, ← getLastD_eq_getD]
    exact h2
  have gcond : 2 ≤ LockStack.topCount (LockStack.push o s) := by
    rw [hlen]
    simp [LockStack.topCount] at h1
    omega
  simp only [LockStack.try_recursive_exit, gcond, g1, g2, and_self, if_true]
  show (true, { s with base := (s.base ++ [o]).dropLast }) = (true, s)
  rw [List.dropLast_concat]

/-- Witness for C3 at the concrete stack [5]. -/
theorem claim_C3_enter_exit_roundtrip_w :
    LockStack.try_recursive_exit 5
      (LockStack.try_recursive_enter 5 ⟨[5], false⟩).2 = (true, ⟨[5], false⟩) :=
  claim_C3_enter_exit_roundtrip ⟨[5], false⟩ 5 (by decide) (by decide)

/-- Any single operation other than `remove(o)` preserves membership of `o`:
a successful `tryRecursiveExit` only removes a recursive duplicate (another
occurrence of the same oop sits immediately below), and `remove` of a
different oop keeps every occurrence of `o`. -/
theorem contains_lsStep (op : LSOp) (o : Oop) (s : LockStack)
    (hop : op ≠ LSOp.removeO o)
    (hc : LockStack.contains o s = true) :
    LockStack.contains o (lsStep op s) = true := by
  rw [contains_iff_mem] at hc ⊢
  cases op with
  | pushO o2 =>
    simp only [lsStep]
    split
    · simp only [LockStack.push, List.mem_append]
      exact Or.inl hc
    · exact hc
  | enterO o2 =>
    simp only [lsStep]
    unfold LockStack.try_recursive_enter
    split
    · simp only [LockStack.push, List.mem_append]
      exact Or.inl hc
    · exact hc
  | exitO o2 =>
    simp only [lsStep]
    unfold LockStack.try_recursive_exit
    split
    case isTrue h =>
      obtain ⟨h2, htop, hbelow⟩ := h
      show o ∈ s.base.dropLast
      by_cases ho : o2 = o
      · subst ho
        have hidx : LockStack.topCount s - 2 < s.base.length := by
          simp only [LockStack.topCount] at h2 ⊢
          omega
        have hidx2 : LockStack.topCount s - 2 < s.base.dropLast.length := by
          simp only [LockStack.topCount, List.length_dropLast] at h2 ⊢
          omega
        have hval : s.base[LockStack.topCount s - 2] = o2 := by
          rw [List.getD_eq_getElem?_getD, List.getElem?_eq_getElem hidx] at hbelow
          exact hbelow
        have : s.base.dropLast[LockStack.topCount s - 2] = o2 := by
          rw [List.getElem_dropLast]
          exact hval
        exact this ▸ List.getElem_mem hidx2
      · have hne : s.base ≠ [] := by
          intro hnil
          rw [hnil] at hc
          cases hc
        have hdecomp := List.dropLast_concat_getLast hne
        have hlast : s.base.getLast hne = o2 := by
          rw [List.getLast_eq_getElem]
          have hidx : s.base.length - 1 < s.base.length := by
            simp only [LockStack.topCount] at h2
            omega
          rw [List.getD_eq_getElem?_getD, LockStack.topCount,
            List.getElem?_eq_getElem hidx] at htop
          exact htop
        rw [← hdecomp, List.mem_append] at hc
        rcases hc with hin | hlast2
        · exact hin
        · rw [List.mem_singleton, hlast] at hlast2
          exact absurd hlast2.symm ho
    case isFalse h => exact hc
  | removeO o2 =>
    have hne : o ≠ o2 := by
      intro hh
      exact hop (by rw [hh])
    simp only [lsStep, LockStack.remove, removeScan_spec]
    simp [List.mem_filter, hc, hne]
  | setWWI => exact hc
  | clearWWI => exact hc

/-- Membership of `o` survives any run of operations none of which is
`remove(o)`. -/
theorem contains_lsRun (o : Oop) (ops : List LSOp) (s : LockStack)
    (hops : ∀ op ∈ ops, op ≠ LSOp.removeO o)
    (hc : LockStack.contains o s = true) :
    LockStack.contains o (lsRun ops s) = true := by
  induction ops generalizing s with
  | nil => exact hc
  | cons op rest ih =>
    have hstep := contains_lsStep op o s (hops op (List.mem_cons_self op rest)) hc
    exact ih (lsStep op s) (fun op2 h2 => hops op2 (List.mem_cons_of_mem op h2)) hstep

/-- C9: in any operation sequence whose pushes happen under `canPush(1)`,
`contains(o)` is true immediately after `push(o)` and stays true through the
rest of the sequence until an operation removes the last occurrence of `o`:
in this operation set only `remove(o)` can do that (a successful
`tryRecursiveExit(o)` pops a recursive duplicate, leaving another
occurrence), so the property persists across every sequence avoiding
`remove(o)`. -/
theorem claim_C9_contains_persists (s : LockStack) (o : Oop) (ops : List LSOp)
    (hcp : LockStack.can_push s 1 = true)
    (hops : ∀ op ∈ ops, op ≠ LSOp.removeO o) :
    LockStack.contains o (lsStep (LSOp.pushO o) s) = true
    ∧ LockStack.contains o (lsRun ops (lsStep (LSOp.pushO o) s)) = true := by
  have h0 : LockStack.contains o (lsStep (LSOp.pushO o) s) = true := by
    simp only [lsStep, hcp, if_true]
    rw [contains_iff_mem]
    simp [LockStack.push]
  exact ⟨h0, contains_lsRun o ops _ hops h0⟩

/-- Witness for C9: push 5 onto the empty stack, then push 6 and use a
recursive enter/exit pair on 6; 5 is still on the stack. -/
theorem claim_C9_contains_persists_w :
    LockStack.contains 5
      (lsRun [LSOp.pushO 6, LSOp.enterO 6, LSOp.exitO 6]
        (lsStep (LSOp.pushO 5) ⟨[], false⟩)) = true :=
  (claim_C9_contains_persists ⟨[], false⟩ 5 [LSOp.pushO 6, LSOp.enterO 6, LSOp.exitO 6]
    (by decide) (by decide)).2

theorem zip_map_fst_snd_self (es : List (Oop × Nat)) :
    (es.map Prod.fst).zip (es.map Prod.snd) = es := by
  induction es with
  | nil => rfl
  | cons e t ih => simp [ih]

theorem entries_ofEntries (es : List (Oop × Nat)) :
    OMCache.entries (OMCache.ofEntries es) = es :=
  zip_map_fst_snd_self es

theorem ofEntries_oops_length (es : List (Oop × Nat)) :
    (OMCache.ofEntries es).oops.length = es.length := by
  simp [OMCache.ofEntries]

theorem ofEntries_monitors_length (es : List (Oop × Nat)) :
    (OMCache.ofEntries es).monitors.length = es.length := by
  simp [OMCache.ofEntries]

theorem entries_emptyCache :
    OMCache.entries OMCache.emptyCache = List.replicate OMCache.CAPACITY (0, 0) :=
  entries_ofEntries _

theorem extractFirst_eq_none_iff (p : Oop × Nat → Bool) (l : List (Oop × Nat)) :
    extractFirst p l = none ↔ ∀ x ∈ l, p x = false := by
  induction l with
  | nil => simp [extractFirst]
  | cons e es ih =>
    by_cases he : p e = true
    · simp [extractFirst, he]
    · simp only [Bool.not_eq_true] at he
      rw [extractFirst, if_neg (by simp [he])]
      cases hr : extractFirst p es with
      | none =>
        simp only [true_iff]
        intro x hx
        rcases List.mem_cons.1 hx with rfl | hx2
        · exact he
        · exact (ih.1 hr) x hx2
      | some xr =>
        obtain ⟨x2, rest2⟩ := xr
        simp only [reduceCtorEq, false_iff, not_forall]
        have hnone : ¬ extractFirst p es = none := by simp [hr]
        rw [ih] at hnone
        push_neg at hnone
        obtain ⟨y, hy, hpy⟩ := hnone
        exact ⟨y, List.mem_cons_of_mem e hy, by simpa using hpy⟩

theorem extractFirst_eq_some (p : Oop × Nat → Bool) (l : List (Oop × Nat))
    (x : Oop × Nat) (rest : List (Oop × Nat))
    (h : extractFirst p l = some (x, rest)) :
    p x = true ∧ List.Perm l (x :: rest) := by
  induction l generalizing rest with
  | nil => cases h
  | cons e es ih =>
    rw [extractFirst] at h
    by_cases he : p e = true
    · rw [if_pos he] at h
      cases h
      exact ⟨he, List.Perm.refl _⟩
    · rw [if_neg he] at h
      cases hr : extractFirst p es with
      | none => rw [hr] at h; cases h
      | some xr =>
        obtain ⟨x2, rest2⟩ := xr
        rw [hr] at h
        cases h
        obtain ⟨hp, hperm⟩ := ih rest2 hr
        refine ⟨hp, ?_⟩
        exact (hperm.cons e).trans (List.Perm.swap x e rest2)

/-- The state after `getMonitor(o)`: either unchanged (miss), or the hit
entry promoted to the most-recently-used position, with the slot multiset
preserved. -/
theorem get_monitor_snd_cases (o : Oop) (c : OMCache) :
    (OMCache.get_monitor o c).2 = c ∨
    ∃ x rest, List.Perm (OMCache.entries c) (x :: rest) ∧
      (OMCache.get_monitor o c).2 = OMCache.ofEntries (x :: rest) := by
  unfold OMCache.get_monitor
  cases hfi : extractFirst (fun e => e.1 == o) (OMCache.entries c) with
  | none => exact Or.inl rfl
  | some xr =>
    obtain ⟨x, rest⟩ := xr
    exact Or.inr ⟨x, rest, (extractFirst_eq_some _ _ x rest hfi).2, rfl⟩

/-- On a hit, `getMonitor(o)` returns the monitor that every `o`-entry maps
to. -/
theorem get_monitor_hit (o : Oop) (v : Nat) (c : OMCache)
    (hin : OMCache.containsOop o c = true)
    (hmap : ∀ e ∈ OMCache.entries c, e.1 = o → e.2 = v) :
    (OMCache.get_monitor o c).1 = some v := by
  unfold OMCache.get_monitor
  cases hfi : extractFirst (fun e => e.1 == o) (OMCache.entries c) with
  | none =>
    exfalso
    rw [extractFirst_eq_none_iff] at hfi
    simp only [OMCache.containsOop, List.any_eq_true] at hin
    obtain ⟨e, he, hpe⟩ := hin
    rw [hfi e he] at hpe
    cases hpe
  | some xr =>
    obtain ⟨x, rest⟩ := xr
    obtain ⟨hp, hperm⟩ := extractFirst_eq_some _ _ x rest hfi
    have hx1 : x.1 = o := by simpa using hp
    have hxin : x ∈ OMCache.entries c := hperm.mem_iff.2 (List.mem_cons_self x rest)
    have := hmap x hxin hx1
    simp [this]

theorem get_monitor_miss_of_all_ne (o : Oop) (c : OMCache)
    (hall : ∀ e ∈ OMCache.entries c, (e.1 == o) = false) :
    OMCache.get_monitor o c = (none, c) := by
  unfold OMCache.get_monitor
  rw [(extractFirst_eq_none_iff _ _).2 hall]

/-- A miss leaves the cache untouched. -/
theorem get_monitor_miss_frame (o : Oop) (c : OMCache)
    (h : (OMCache.get_monitor o c).1 = none) :
    (OMCache.get_monitor o c).2 = c := by
  unfold OMCache.get_monitor at h ⊢
  cases hfi : extractFirst (fun e => e.1 == o) (OMCache.entries c) with
  | none => rfl
  | some xr =>
    obtain ⟨x, rest⟩ := xr
    rw [hfi] at h
    cases h

theorem get_monitor_empty (o : Oop) (ho : o ≠ 0) :
    OMCache.get_monitor o OMCache.emptyCache = (none, OMCache.emptyCache) := by
  apply get_monitor_miss_of_all_ne
  intro e he
  rw [entries_emptyCache] at he
  rw [(List.mem_replicate.1 he).2]
  simp [Ne.symm ho]

/-- Generic slot-pair invariant preservation: a predicate true of every slot
pair, true of the sentinel pair, and true of whatever pair a `setMonitor`
inserts, stays true of every slot pair after one step. -/
theorem entriesPred_step (P : Oop × Nat → Prop) (op : OMOp) (c : OMCache)
    (hP : ∀ e ∈ OMCache.entries c, P e)
    (hzero : P (0, 0))
    (hset : ∀ m, op = OMOp.setO m → P (m.obj, m.id)) :
    ∀ e ∈ OMCache.entries (omStep op c), P e := by
  cases op with
  | getO o =>
    rcases get_monitor_snd_cases o c with hcase | ⟨x, rest, hperm, hcase⟩
    · intro e he
      simp only [omStep, hcase] at he
      exact hP e he
    · intro e he
      simp only [omStep, hcase, entries_ofEntries] at he
      exact hP e (hperm.mem_iff.2 he)
  | setO m =>
    intro e he
    simp only [omStep, OMCache.set_monitor, entries_ofEntries] at he
    rcases List.mem_cons.1 he with rfl | h2
    · exact hset m rfl
    · rcases List.mem_append.1 h2 with h3 | h3
      · have h4 := List.take_subset _ _ h3
        exact hP e (List.mem_filter.1 h4).1
      · rw [(List.mem_replicate.1 h3).2]
        exact hzero
  | clearO =>
    intro e he
    simp only [omStep, OMCache.clear] at he
    rw [entries_emptyCache] at he
    rw [(List.mem_replicate.1 he).2]
    exact hzero

/-- Every step keeps the parallel arrays at length CAPACITY. -/
theorem omStep_lengths (op : OMOp) (c : OMCache)
    (h1 : c.oops.length = OMCache.CAPACITY)
    (h2 : c.monitors.length = OMCache.CAPACITY) :
    (omStep op c).oops.length = OMCache.CAPACITY ∧
    (omStep op c).monitors.length = OMCache.CAPACITY := by
  have hlen : (OMCache.entries c).length = OMCache.CAPACITY := by
    simp [OMCache.entries, h1, h2]
  cases op with
  | getO o =>
    rcases get_monitor_snd_cases o c with hcase | ⟨x, rest, hperm, hcase⟩
    · simp only [omStep, hcase]
      exact ⟨h1, h2⟩
    · have hl : (x :: rest).length = OMCache.CAPACITY := by
        rw [← hperm.length_eq, hlen]
      constructor
      · rw [omStep, hcase, ofEntries_oops_length, hl]
      · rw [omStep, hcase, ofEntries_monitors_length, hl]
  | setO m =>
    have hk : (((OMCache.entries c).filter
        (fun e => !(e.1 == m.obj) && !(e.1 == 0))).take
          (OMCache.CAPACITY - 1)).length ≤ OMCache.CAPACITY - 1 := by
      rw [List.length_take]
      omega
    constructor <;>
      · simp only [omStep, OMCache.set_monitor, ofEntries_oops_length,
          ofEntries_monitors_length, List.length_append, List.length_replicate,
          List.length_cons]
        simp only [OMCache.CAPACITY] at hk ⊢
        omega
  | clearO =>
    constructor <;>
      simp [omStep, OMCache.clear, OMCache.emptyCache, OMCache.ofEntries]

/-- One well-formed step preserves the parallel-array invariant. -/
theorem inv_omStep (op : OMOp) (c : OMCache)
    (hgood : OMOp.good op = true) (hinv : OMCache.Inv c) :
    OMCache.Inv (omStep op c) := by
  obtain ⟨hl1, hl2, hpred⟩ := hinv
  obtain ⟨g1, g2⟩ := omStep_lengths op c hl1 hl2
  refine ⟨g1, g2, ?_⟩
  apply entriesPred_step _ op c hpred (by simp)
  intro m hm
  subst hm
  simp only [OMOp.good, Bool.and_eq_true, Bool.not_eq_true'] at hgood
  constructor
  · intro h
    exact absurd (beq_iff_eq.2 h) (by simp [hgood.1])
  · intro h
    exact absurd (beq_iff_eq.2 h) (by simp [hgood.2])

/-- A run of well-formed operations preserves the invariant. -/
theorem inv_omRun (ops : List OMOp) (c : OMCache)
    (hops : ∀ op ∈ ops, OMOp.good op = true) (hinv : OMCache.Inv c) :
    OMCache.Inv (omRun ops c) := by
  induction ops generalizing c with
  | nil => exact hinv
  | cons op rest ih =>
    exact ih (omStep op c)
      (fun o2 h2 => hops o2 (List.mem_cons_of_mem op h2))
      (inv_omStep op c (hops op (List.mem_cons_self op rest)) hinv)

/-- A run of valid-object probes leaves the freshly cleared cache empty. -/
theorem omRun_gets_empty (ops : List OMOp)
    (hops : ∀ op ∈ ops, OMOp.isNzGet op = true) :
    omRun ops OMCache.emptyCache = OMCache.emptyCache := by
  induction ops with
  | nil => rfl
  | cons op rest ih =>
    have h1 := hops op (List.mem_cons_self op rest)
    have hstep : omStep op OMCache.emptyCache = OMCache.emptyCache := by
      cases op with
      | getO o2 =>
        have ho2 : o2 ≠ 0 := by simpa [OMOp.isNzGet] using h1
        simp only [omStep]
        rw [get_monitor_empty o2 ho2]
      | setO m => simp [OMOp.isNzGet] at h1
      | clearO => simp [OMOp.isNzGet] at h1
    show omRun rest (omStep op OMCache.emptyCache) = OMCache.emptyCache
    rw [hstep]
    exact ih (fun op2 h2 => hops op2 (List.mem_cons_of_mem op h2))

/-- C7: after `clear()`, every `getMonitor(o)` for a valid object `o` keeps
returning the explicit miss result across any further sequence of probes,
until some `setMonitor` occurs (the run below is probe-only); and a
`getMonitor` call that misses leaves the cache contents unchanged. -/
theorem claim_C7_clear_then_miss (c c2 : OMCache) (o : Oop) (ops : List OMOp)
    (ho : o ≠ 0)
    (hops : ∀ op ∈ ops, OMOp.isNzGet op = true) :
    (OMCache.get_monitor o (omRun ops (OMCache.clear c))).1 = none
    ∧ ((OMCache.get_monitor o c2).1 = none →
        (OMCache.get_monitor o c2).2 = c2) := by
  constructor
  · have hclear : OMCache.clear c = OMCache.emptyCache := rfl
    rw [hclear, omRun_gets_empty ops hops, get_monitor_empty o ho]
  · exact get_monitor_miss_frame o c2

/-- Witness for C7: a cleared cache misses on object 5, also after a probe
for object 9. -/
theorem claim_C7_clear_then_miss_w :
    (OMCache.get_monitor 5
      (omRun [OMOp.getO 9] (OMCache.clear OMCache.emptyCache))).1 = none :=
  (claim_C7_clear_then_miss OMCache.emptyCache OMCache.emptyCache 5 [OMOp.getO 9]
    (by decide) (by decide)).1

theorem zip_getD_mem (l1 : List Oop) (l2 : List Nat) (i : Nat)
    (h1 : i < l1.length) (h2 : i < l2.length) :
    (l1.getD i 1, l2.getD i 1) ∈ l1.zip l2 := by
  rw [List.getD_eq_getElem?_getD, List.getD_eq_getElem?_getD,
    List.getElem?_eq_getElem h1, List.getElem?_eq_getElem h2]
  simp only [Option.getD_some]
  have hz : (l1.zip l2)[i]? = some (l1[i], l2[i]) := by
    rw [List.getElem?_zip_eq_some]
    exact ⟨List.getElem?_eq_getElem h1, List.getElem?_eq_getElem h2⟩
  exact List.getElem?_mem hz

/-- C8: from the freshly constructed cache (every slot sentinel-initialized
by the constructor, establishing the invariant) and along any sequence of
well-formed `getMonitor` / `setMonitor` / `clear` operations, at every index
`i < CAPACITY` the oops slot holds the null sentinel iff the monitors slot
is invalid/unset. -/
theorem claim_C8_sentinel_invariant (ops : List OMOp)
    (hops : ∀ op ∈ ops, OMOp.good op = true) :
    OMCache.Inv OMCache.emptyCache
    ∧ OMCache.Inv (omRun ops OMCache.emptyCache)
    ∧ ∀ i, i < OMCache.CAPACITY →
        ((omRun ops OMCache.emptyCache).oops.getD i 1 = 0 ↔
         (omRun ops OMCache.emptyCache).monitors.getD i 1 = 0) := by
  have h0 : OMCache.Inv OMCache.emptyCache := by
    refine ⟨by decide, by decide, by decide⟩
  have h1 := inv_omRun ops OMCache.emptyCache hops h0
  refine ⟨h0, h1, ?_⟩
  intro i hi
  obtain ⟨hl1, hl2, hpred⟩ := h1
  exact hpred _ (zip_getD_mem _ _ i (by omega) (by omega))

/-- Witness for C8 after one valid insertion. -/
theorem claim_C8_sentinel_invariant_w :
    OMCache.Inv (omRun [OMOp.setO ⟨7, 3⟩] OMCache.emptyCache) :=
  (claim_C8_sentinel_invariant [OMOp.setO ⟨7, 3⟩] (by decide)).2.1

/-- Every slot for object `o` carries monitor `v`. -/
def MapsTo (o : Oop) (v : Nat) (c : OMCache) : Prop :=
  ∀ e ∈ OMCache.entries c, e.1 = o → e.2 = v

theorem mapsTo_set_monitor (m : ObjectMonitor) (c : OMCache) (hm : m.obj ≠ 0) :
    MapsTo m.obj m.id (OMCache.set_monitor m c) := by
  intro e he
  simp only [OMCache.set_monitor, entries_ofEntries] at he
  rcases List.mem_cons.1 he with rfl | h2
  · intro _
    rfl
  · rcases List.mem_append.1 h2 with h3 | h3
    · have h4 := List.mem_filter.1 (List.take_subset _ _ h3)
      simp only [Bool.and_eq_true, Bool.not_eq_true'] at h4
      intro he1
      exact absurd (by simp [he1] : (e.1 == m.obj) = true) (by simp [h4.2.1])
    · rw [(List.mem_replicate.1 h3).2]
      intro h0
      exact absurd h0.symm hm

theorem mapsTo_omStep (o : Oop) (v : Nat) (op : OMOp) (c : OMCache)
    (ho : o ≠ 0) (hmap : MapsTo o v c)
    (hop : OMOp.setsObj o op = false) :
    MapsTo o v (omStep op c) := by
  apply entriesPred_step _ op c hmap
  · intro h0
    exact absurd h0.symm ho
  · intro m2 hm2
    subst hm2
    simp only [OMOp.setsObj] at hop
    intro he1
    have hb : (m2.obj == o) = true := beq_iff_eq.2 he1
    rw [hop] at hb
    cases hb

theorem mapsTo_omRun (o : Oop) (v : Nat) (ops : List OMOp) (c : OMCache)
    (ho : o ≠ 0) (hmap : MapsTo o v c)
    (hops : ∀ op ∈ ops, OMOp.setsObj o op = false) :
    MapsTo o v (omRun ops c) := by
  induction ops generalizing c with
  | nil => exact hmap
  | cons op rest ih =>
    exact ih (omStep op c)
      (mapsTo_omStep o v op c ho hmap (hops op (List.mem_cons_self op rest)))
      (fun op2 h2 => hops op2 (List.mem_cons_of_mem op h2))

theorem containsOop_set_monitor (m : ObjectMonitor) (c : OMCache) :
    OMCache.containsOop m.obj (OMCache.set_monitor m c) = true := by
  simp only [OMCache.containsOop, OMCache.set_monitor, entries_ofEntries]
  simp

theorem countP_set_monitor (m : ObjectMonitor) (c : OMCache) (hm : m.obj ≠ 0) :
    List.countP (fun e => e.1 == m.obj)
      (OMCache.entries (OMCache.set_monitor m c)) = 1 := by
  simp only [OMCache.set_monitor, entries_ofEntries]
  rw [List.cons_append, List.countP_cons, List.countP_append]
  have hk : List.countP (fun e => e.1 == m.obj)
      (((OMCache.entries c).filter
        (fun e => !(e.1 == m.obj) && !(e.1 == 0))).take (OMCache.CAPACITY - 1)) = 0 := by
    rw [List.countP_eq_zero]
    intro a ha
    have h4 := List.mem_filter.1 (List.take_subset _ _ ha)
    simp only [Bool.and_eq_true, Bool.not_eq_true'] at h4
    simp [h4.2.1]
  have hr : List.countP (fun e => e.1 == m.obj)
      (List.replicate (OMCache.CAPACITY -
        ((m.obj, m.id) :: ((OMCache.entries c).filter
          (fun e => !(e.1 == m.obj) && !(e.1 == 0))).take (OMCache.CAPACITY - 1)).length)
        ((0 : Oop), (0 : Nat))) = 0 := by
    rw [List.countP_eq_zero]
    intro a ha
    rw [(List.mem_replicate.1 ha).2]
    simp [Ne.symm hm]
  rw [hk, hr]
  simp

/-- The spec's end-to-end cache scenario: monitors with ids 101..109 for the
nine distinct objects 1..9, inserted in order into a fresh cache. -/
def demoOps : List OMOp :=
  [OMOp.setO ⟨101, 1⟩, OMOp.setO ⟨102, 2⟩, OMOp.setO ⟨103, 3⟩,
   OMOp.setO ⟨104, 4⟩, OMOp.setO ⟨105, 5⟩, OMOp.setO ⟨106, 6⟩,
   OMOp.setO ⟨107, 7⟩, OMOp.setO ⟨108, 8⟩, OMOp.setO ⟨109, 9⟩]

/-- The cache after the nine insertions of `demoOps`. -/
def demoCache : OMCache := omRun demoOps OMCache.emptyCache

/-- C5: after `setMonitor(m)` for `m`'s owning object `o`, `getMonitor(o)`
returns `m`, and keeps returning `m` across any further operations that do
not insert another monitor for `o`, for as long as `o` has not been evicted
(it stays cached until a capacity-driven eviction or `clear()` removes it —
`containsOop` false); a `setMonitor` for an object already cached overwrites
that entry rather than duplicating it (exactly one slot for `o` afterwards);
and with capacity 8, inserting monitors for 9 distinct objects evicts
exactly the least-recently-touched entry: the evicted object misses while
the other 8 remain hits. -/
theorem claim_C5_cache_hit_overwrite_evict (c : OMCache) (m : ObjectMonitor)
    (ops : List OMOp) (h1 : m.obj ≠ 0)
    (hops : ∀ op ∈ ops, OMOp.setsObj m.obj op = false) :
    (OMCache.get_monitor m.obj (OMCache.set_monitor m c)).1 = some m.id
    ∧ List.countP (fun e => e.1 == m.obj)
        (OMCache.entries (OMCache.set_monitor m c)) = 1
    ∧ (OMCache.containsOop m.obj (omRun ops (OMCache.set_monitor m c)) = true →
        (OMCache.get_monitor m.obj (omRun ops (OMCache.set_monitor m c))).1
          = some m.id)
    ∧ ((OMCache.get_monitor 1 demoCache).1 = none
        ∧ ∀ k ∈ [2, 3, 4, 5, 6, 7, 8, 9],
            (OMCache.get_monitor k demoCache).1 = some (100 + k)) := by
  refine ⟨?_, countP_set_monitor m c h1, ?_, by decide, by decide⟩
  · exact get_monitor_hit m.obj m.id _ (containsOop_set_monitor m c)
      (mapsTo_set_monitor m c h1)
  · intro hin
    exact get_monitor_hit m.obj m.id _ hin
      (mapsTo_omRun m.obj m.id ops _ h1 (mapsTo_set_monitor m c h1) hops)

/-- Witness for C5: insert monitor 7 for object 3 into the fresh cache, then
probe object 9; object 3 still hits with monitor 7. -/
theorem claim_C5_cache_hit_overwrite_evict_w :
    (OMCache.get_monitor 3
      (omRun [OMOp.getO 9] (OMCache.set_monitor ⟨7, 3⟩ OMCache.emptyCache))).1
      = some 7 :=
  (claim_C5_cache_hit_overwrite_evict OMCache.emptyCache ⟨7, 3⟩ [OMOp.getO 9]
    (by decide) (by decide)).2.2.1 (by decide)
